import Mathlib

/-!
Verification of the commitgen core: the Change Analyzer
(`analyzeChanges` in `src/index.ts`) and the two rule-based fallback
suggesters (`CommitGen.getFallbackSuggestions` in `src/index.ts` and
`VercelGoogleProvider.getFallbackSuggestions` in
`src/providers/vercel-google.ts`).

Strings are modelled over `List Char`; splitting, trimming and the
JavaScript regular expressions used by the source are embedded as
executable functions so that concrete runs evaluate by `decide`.
-/

/-- Whitespace as matched by the JavaScript regex class `\s` and removed
by `String.prototype.trim`: the ASCII whitespace characters, NBSP,
OGHAM SPACE MARK, the U+2000-U+200A spaces, LINE and PARAGRAPH
SEPARATOR, NARROW NO-BREAK SPACE, MEDIUM MATHEMATICAL SPACE,
IDEOGRAPHIC SPACE and ZERO WIDTH NO-BREAK SPACE. -/
def isWs (c : Char) : Bool :=
  c == ' ' || c == '\t' || c == '\n' || c == '\r' || c == '\x0B' || c == '\x0C' ||
  c == '\u00A0' || c == '\u1680' || ('\u2000' ≤ c && c ≤ '\u200A') ||
  c == '\u2028' || c == '\u2029' || c == '\u202F' || c == '\u205F' ||
  c == '\u3000' || c == '\uFEFF'

/-- The ECMAScript LineTerminator characters: LF, CR, LINE SEPARATOR and
PARAGRAPH SEPARATOR.  With the `m` flag, `^` matches at the string start
and immediately after each of these; without the `s` flag, `.` matches
every character except these. -/
def isLineTerm (c : Char) : Bool :=
  c == '\n' || c == '\r' || c == '\u2028' || c == '\u2029'

/-- Split a character list on a separator character, exactly as
JavaScript `String.prototype.split` does: the empty string yields one
empty segment, a trailing separator yields a trailing empty segment. -/
def splitOnChar (sep : Char) : List Char → List (List Char)
  | [] => [[]]
  | c :: rest =>
    let ls := splitOnChar sep rest
    if c == sep then [] :: ls
    else
      match ls with
      | l :: t => (c :: l) :: t
      | [] => [[c]]

/-- The lines of a string, as produced by `diff.split("\n")` in the source. -/
def splitLines (s : List Char) : List (List Char) := splitOnChar '\n' s

/-- JavaScript `String.prototype.trim`, as applied by `CommitGen.exec`
(`src/index.ts` lines 14-23) to every git output before the analyzer sees it. -/
def jsTrim (s : String) : String :=
  String.mk (((s.data.dropWhile isWs).reverse.dropWhile isWs).reverse)

/-- `needle.isPrefixOf`-based occurrence test: JavaScript
`String.prototype.includes`, used by the suggesters' file-marker checks. -/
def hasSub (needle : List Char) : List Char → Bool
  | [] => needle.isEmpty
  | c :: rest => needle.isPrefixOf (c :: rest) || hasSub needle rest

/-- `hay.includes(needle)` from the source. -/
def strIncludes (hay needle : String) : Bool := hasSub needle.data hay.data

/-- `GitAnalysis` from `src/types.ts`. The addition/deletion counts are
the line counts produced by the analyzer, hence natural numbers. -/
structure GitAnalysis where
  filesChanged : List String
  additions : Nat
  deletions : Nat
  hasStaged : Bool
  hasUnstaged : Bool
  diff : String
deriving DecidableEq

/-- `CommitMessage` from `src/types.ts`. -/
structure CommitMessage where
  type : String
  scope : Option String := none
  subject : String
  body : Option String := none
  breaking : Option Bool := none
deriving DecidableEq

/-- Split a character list at every character satisfying a predicate
(each terminator ends a segment; segments may be empty). -/
def splitOnPred (p : Char → Bool) : List Char → List (List Char)
  | [] => [[]]
  | c :: rest =>
    let ls := splitOnPred p rest
    if p c then [] :: ls
    else
      match ls with
      | l :: t => (c :: l) :: t
      | [] => [[c]]

/-- The segments between ECMAScript line terminators: their start
positions are exactly the positions at which a multiline `^` matches. -/
def termSegments (s : List Char) : List (List Char) := splitOnPred isLineTerm s

/-- A segment matches `/^\+(?!\+)/` (resp. `-`) at its start: it begins
with the character and the next character, if any, differs from it (the
lookahead may also see the segment's ending line terminator, which is
never `+` or `-`). -/
def startsSingle (c : Char) : List Char → Bool
  | [] => false
  | c₀ :: rest => c₀ == c && !(rest.head? == some c)

/-- `(diff.match(/^\+(?!\+)/gm) || []).length` from `src/index.ts` line
55: one match per multiline `^` position whose segment starts with a
single `+`, i.e. per line-terminator-delimited segment. -/
def countAdditions (diff : String) : Nat :=
  ((termSegments diff.data).filter (startsSingle '+')).length

/-- `(diff.match(/^-(?!-)/gm) || []).length` from `src/index.ts` line 56. -/
def countDeletions (diff : String) : Nat :=
  ((termSegments diff.data).filter (startsSingle '-')).length

/-- One backtracking step of `/^\s*(.+?)\s+\|/`: can `\s+\|` match at the
start of `t`?  Since `|` is not whitespace, the greedy-then-backtracking
`\s+` succeeds exactly when `t` starts with a whitespace character and
the first non-whitespace character of `t` is `|`. -/
def wsRunThenPipe : List Char → Bool
  | [] => false
  | c :: rest => isWs c && ((rest.dropWhile isWs).head? == some '|')

/-- The lazy group `(.+?)\s+\|`: the shortest non-empty prefix of the
input after which `\s+\|` matches, in the order the JavaScript engine
explores extensions of a lazy quantifier.  The dot cannot consume a
LineTerminator, so a capture never extends across one. -/
def lazyCapture : List Char → Option (List Char)
  | [] => none
  | c :: rest =>
    if isLineTerm c then none
    else if wsRunThenPipe rest then some [c]
    else (lazyCapture rest).map (fun cs => c :: cs)

/-- Backtracking of the greedy `\s*` of `/^\s*(.+?)\s+\|/`: the engine
first lets `\s*` consume `a` characters and runs the lazy group on the
rest; on failure it retries with one character fewer. -/
def matchFrom (s : List Char) : Nat → Option (List Char)
  | 0 => lazyCapture s
  | a + 1 =>
    match lazyCapture (s.drop (a + 1)) with
    | some cs => some cs
    | none => matchFrom s a

/-- The capture group of `line.match(/^\s*(.+?)\s+\|/)` from
`src/index.ts` line 50: `\s*` starts greedy at the full leading
whitespace run and backtracks. -/
def regexCapture (s : List Char) : Option (List Char) :=
  matchFrom s (s.takeWhile isWs).length

/-- The path pushed for one line of the stat output (`match[1]`),
when the line matches. -/
def lineCapture (l : List Char) : Option String :=
  (regexCapture l).map String.mk

/-- File extraction of `analyzeChanges` (`src/index.ts` lines 46-53):
guarded by JavaScript truthiness of `staged`, each line's capture group
is pushed in line order. -/
def extractFiles (staged : String) : List String :=
  if staged = "" then []
  else (splitLines staged.data).filterMap lineCapture

/-- The Change Analyzer core (`src/index.ts` lines 41-66) as a pure
function of the three git output strings it reads. -/
def analyzeChanges (staged diff unstaged : String) : GitAnalysis :=
  { filesChanged := extractFiles staged
    additions := countAdditions diff
    deletions := countDeletions diff
    hasStaged := staged != ""
    hasUnstaged := unstaged != ""
    diff := diff }

/-- The analyzer as deployed: every git output reaches it through
`exec`, which trims the raw process output (`src/index.ts` lines 14-23,
29-39). -/
def analyzeFromGit (rawStat rawDiff rawUnstaged : String) : GitAnalysis :=
  analyzeChanges (jsTrim rawStat) (jsTrim rawDiff) (jsTrim rawUnstaged)

/-- `filesChanged.some(f => f.includes("test") || f.includes("spec") ||
f.includes("__tests__"))`, identical in both suggesters. -/
def hasTestMarker (files : List String) : Bool :=
  files.any fun f => strIncludes f "test" || strIncludes f "spec" || strIncludes f "__tests__"

/-- `filesChanged.some(f => f.includes("README") || f.includes(".md"))`. -/
def hasDocsMarker (files : List String) : Bool :=
  files.any fun f => strIncludes f "README" || strIncludes f ".md"

/-- `filesChanged.some(f => f.includes("config") || f.includes(".json") ||
f.includes("package.json"))`. -/
def hasConfigMarker (files : List String) : Bool :=
  files.any fun f => strIncludes f "config" || strIncludes f ".json" || strIncludes f "package.json"

/-- Occurrences of a string in a list. -/
def countOcc (xs : List String) (x : String) : Nat :=
  (xs.filter fun y => y == x).length

/-- Most frequent element, ties broken by first occurrence order. -/
def mostFrequent (xs : List String) : Option String :=
  xs.foldl
    (fun best x =>
      match best with
      | none => some x
      | some b => if countOcc xs x > countOcc xs b then some x else some b)
    none

/-- Path segments of a file path (split on `/`). -/
def pathSegs (f : String) : List String :=
  (splitOnChar '/' f.data).map String.mk

/-- The directory segments of a path: every segment except the file name. -/
def dirTokens (f : String) : List String := (pathSegs f).dropLast

/-- The file-type token of a path: its extension, when it has one. -/
def extToken (f : String) : Option String :=
  let parts := splitOnChar '.' f.data
  if parts.length ≤ 1 then none else parts.getLast?.map String.mk

/-- Modelled from the spec: `BaseProvider.inferScope`
(`src/providers/base.ts`) is not under `src/`.  Spec §4.2: "pick the
most frequent distinguishing directory/file-type token among
`filesChanged`; ties broken by first occurrence order."  Directory
segments other than the generic `src` are the distinguishing tokens;
when none exist the file-type tokens (extensions) serve instead, and
with no candidates at all the scope defaults to a neutral "core". -/
def inferScope (files : List String) : String :=
  let dirs := ((files.map dirTokens).flatten).filter fun t => t != "src" && t != ""
  let cands := if dirs.isEmpty then files.filterMap extToken else dirs
  (mostFrequent cands).getD "core"

/-- Modelled from the spec: `BaseProvider.inferFeatureType`
(`src/providers/base.ts`) is not under `src/`.  Spec §4.2 only requires
a subject phrase "inferred from the dominant file-path segment (most
frequent top-level directory or file-type token among `filesChanged`)";
the dominant file-type token is used, with a neutral default. -/
def inferFeatureType (files : List String) : String :=
  (mostFrequent (files.filterMap extToken)).getD "functionality"

namespace CommitGen

/-- Rule 1 of `CommitGen.getFallbackSuggestions` (`src/index.ts` 306-311). -/
def ruleFeat (a : GitAnalysis) : List CommitMessage :=
  if a.additions > a.deletions * 2 ∧ a.additions > 20 then
    [{ type := "feat", subject := "add new feature" }]
  else []

/-- Rule 2 (`src/index.ts` 313-318). -/
def ruleRefactor (a : GitAnalysis) : List CommitMessage :=
  if a.deletions > a.additions * 2 ∧ a.deletions > 20 then
    [{ type := "refactor", subject := "remove unused code" }]
  else []

/-- Rule 3 (`src/index.ts` 320-325). -/
def ruleTest (a : GitAnalysis) : List CommitMessage :=
  if hasTestMarker a.filesChanged then
    [{ type := "test", subject := "add tests" }]
  else []

/-- Rule 4 (`src/index.ts` 327-332). -/
def ruleDocs (a : GitAnalysis) : List CommitMessage :=
  if hasDocsMarker a.filesChanged then
    [{ type := "docs", subject := "update documentation" }]
  else []

/-- Rule 5 (`src/index.ts` 334-339). -/
def ruleChore (a : GitAnalysis) : List CommitMessage :=
  if hasConfigMarker a.filesChanged then
    [{ type := "chore", subject := "update configuration" }]
  else []

/-- The candidates accumulated by the five `if (...) suggestions.push(...)`
blocks, in source order. -/
def rules (a : GitAnalysis) : List CommitMessage :=
  ruleFeat a ++ ruleRefactor a ++ ruleTest a ++ ruleDocs a ++ ruleChore a

/-- The accumulator just before the final slice: when no rule pushed
anything, three generic candidates are pushed (`src/index.ts` 341-356). -/
def fallbackRaw (a : GitAnalysis) : List CommitMessage :=
  if rules a = [] then
    [{ type := "feat", subject := "add feature" },
     { type := "fix", subject := "fix issue" },
     { type := "refactor", subject := "refactor code" }]
  else rules a

/-- `CommitGen.getFallbackSuggestions` (`src/index.ts` 288-359),
returning `suggestions.slice(0, 5)`. -/
def getFallbackSuggestions (a : GitAnalysis) : List CommitMessage :=
  (fallbackRaw a).take 5

end CommitGen

namespace VGProvider

/-- Rule 1 of `VercelGoogleProvider.getFallbackSuggestions`
(`src/providers/vercel-google.ts` 68-74). -/
def ruleFeat (a : GitAnalysis) : List CommitMessage :=
  if a.additions > a.deletions * 2 ∧ a.additions > 20 then
    [{ type := "feat"
       scope := some (inferScope a.filesChanged)
       subject := "add " ++ inferFeatureType a.filesChanged }]
  else []

/-- Rule 2 (`src/providers/vercel-google.ts` 76-81). -/
def ruleRefactor (a : GitAnalysis) : List CommitMessage :=
  if a.deletions > a.additions * 2 ∧ a.deletions > 20 then
    [{ type := "refactor"
       subject := "remove unused " ++ inferFeatureType a.filesChanged }]
  else []

/-- Rule 3 (`src/providers/vercel-google.ts` 83-88). -/
def ruleTest (a : GitAnalysis) : List CommitMessage :=
  if hasTestMarker a.filesChanged then
    [{ type := "test"
       subject := "add tests for " ++ inferScope a.filesChanged }]
  else []

/-- Rule 4 (`src/providers/vercel-google.ts` 90-95). -/
def ruleDocs (a : GitAnalysis) : List CommitMessage :=
  if hasDocsMarker a.filesChanged then
    [{ type := "docs", subject := "update documentation" }]
  else []

/-- Rule 5 (`src/providers/vercel-google.ts` 97-102). -/
def ruleChore (a : GitAnalysis) : List CommitMessage :=
  if hasConfigMarker a.filesChanged then
    [{ type := "chore", subject := "update configuration" }]
  else []

/-- The candidates accumulated by the provider's five push blocks. -/
def rules (a : GitAnalysis) : List CommitMessage :=
  ruleFeat a ++ ruleRefactor a ++ ruleTest a ++ ruleDocs a ++ ruleChore a

/-- `VercelGoogleProvider.getFallbackSuggestions`
(`src/providers/vercel-google.ts` 51-112): a single generic candidate
when no rule fired, and no slice on return. -/
def getFallbackSuggestions (a : GitAnalysis) : List CommitMessage :=
  if rules a = [] then
    [{ type := "feat", subject := "update " ++ inferScope a.filesChanged }]
  else rules a

end VGProvider

/-- A `GitAnalysis` on which none of the five rules fires. -/
@[reducible] def noRuleFires (a : GitAnalysis) : Prop :=
  ¬(a.additions > a.deletions * 2 ∧ a.additions > 20) ∧
  ¬(a.deletions > a.additions * 2 ∧ a.deletions > 20) ∧
  hasTestMarker a.filesChanged = false ∧
  hasDocsMarker a.filesChanged = false ∧
  hasConfigMarker a.filesChanged = false

/-- The spec's search for the end of the path: the shortest non-empty
prefix before the first run of whitespace followed by a pipe.  Unlike
the engine's dot, the spec's wording places no restriction on the
characters inside the path. -/
def specSeek : List Char → Option (List Char)
  | [] => none
  | c :: rest =>
    if wsRunThenPipe rest then some [c]
    else (specSeek rest).map (fun cs => c :: cs)

/-- The spec's reading of a stat line: strip the leading whitespace,
then the path is everything before the first run of whitespace followed
by a pipe; a line without such a run contributes nothing. -/
def specLineCapture (l : List Char) : Option String :=
  (specSeek (l.dropWhile isWs)).map String.mk

/-- File extraction as the spec describes it, over the same lines. -/
def specFiles (stat : String) : List String :=
  (splitLines stat.data).filterMap specLineCapture

/-- A line begins with exactly one copy of `c`: its maximal leading run
of `c` has length one.  This is the spec's wording of the line-count rule. -/
def beginsWithExactlyOne (c : Char) (l : List Char) : Bool :=
  (l.takeWhile fun x => x == c).length == 1

/-- Addition count as the spec words it. -/
def specAdditions (diff : String) : Nat :=
  ((splitLines diff.data).filter (beginsWithExactlyOne '+')).length

/-- Deletion count as the spec words it. -/
def specDeletions (diff : String) : Nat :=
  ((splitLines diff.data).filter (beginsWithExactlyOne '-')).length

/-- Addition count with the claim's exactly-one-`+` rule applied to
ECMAScript lines: segments delimited by any LineTerminator (LF, CR,
LINE SEPARATOR, PARAGRAPH SEPARATOR), the positions where the source's
multiline `^` matches. -/
def termAdditions (diff : String) : Nat :=
  ((termSegments diff.data).filter (beginsWithExactlyOne '+')).length

/-- Deletion count over ECMAScript lines. -/
def termDeletions (diff : String) : Nat :=
  ((termSegments diff.data).filter (beginsWithExactlyOne '-')).length

/-- The backtracking-degenerate lines: the only viable match sits inside
the leading whitespace run (at least two whitespace characters
immediately followed by a pipe, and no match after the run), where the
regex of line 50 extracts a single whitespace character the spec's
reading does not. -/
def degenerateLine (l : List Char) : Bool :=
  decide (2 ≤ (l.takeWhile isWs).length) &&
  ((l.dropWhile isWs).head? == some '|') &&
  (lazyCapture (l.dropWhile isWs)).isNone

/-- The empty analysis: no files, no lines changed. -/
def emptyAnalysis : GitAnalysis :=
  { filesChanged := [], additions := 0, deletions := 0
    hasStaged := false, hasUnstaged := false, diff := "" }

/-- The spec's end-to-end scenario: 45 additions, 12 deletions, one
component file. -/
def buttonAnalysis : GitAnalysis :=
  { filesChanged := ["src/components/Button.tsx"], additions := 45, deletions := 12
    hasStaged := true, hasUnstaged := false, diff := "" }

/-- An analysis on which only the docs rule fires. -/
def readmeAnalysis : GitAnalysis :=
  { filesChanged := ["README.md"], additions := 0, deletions := 0
    hasStaged := true, hasUnstaged := false, diff := "" }

/-! ## Line-count equivalence (C1) -/

theorem startsSingle_eq_beginsOne (c : Char) (l : List Char) :
    startsSingle c l = beginsWithExactlyOne c l := by
  cases l with
  | nil => rfl
  | cons a t =>
    unfold startsSingle beginsWithExactlyOne
    by_cases ha : (a == c) = true
    · cases t with
      | nil => simp [List.takeWhile, ha]
      | cons b t' =>
        by_cases hb : (b == c) = true
        · simp [List.takeWhile, ha, hb]
        · simp [List.takeWhile, ha, hb]
    · simp [List.takeWhile, ha]

/-- C1 counterexample: on the diff `"+x\r+y"` the source regex's
multiline `^` also matches after the bare CR, so the analyzer counts 2
additions, while the claimed count over LF-delimited lines (the one line
`"+x\r+y"` begins with a single `+`) is 1; dually for deletions. -/
theorem analyzer_line_counts_counterexample :
    (analyzeChanges "" "+x\r+y" "").additions = 2 ∧
    specAdditions "+x\r+y" = 1 ∧
    (analyzeChanges "" "+x\r+y" "").additions ≠ specAdditions "+x\r+y" ∧
    (analyzeChanges "" "-x\r-y" "").deletions = 2 ∧
    specDeletions "-x\r-y" = 1 :=
  ⟨by decide, by decide, by decide, by decide, by decide⟩

/-- C1 amended: for every diff text, the analyzer's `additions` (resp.
`deletions`) equals the number of lines beginning with exactly one `+`
(resp. `-`), `++`/`--` (including the `+++`/`---` headers) excluded,
where lines are delimited by any ECMAScript line terminator (LF, CR,
LINE SEPARATOR, PARAGRAPH SEPARATOR — the positions at which the
multiline `^` matches), not only by LF; on LF-only diffs, including
`"+++ a\n+foo\n-bar\n--- b\n"` (additions = 1, deletions = 1), the two
readings coincide. -/
theorem analyzer_line_counts_terminators (staged diff unstaged : String) :
    (analyzeChanges staged diff unstaged).additions = termAdditions diff ∧
    (analyzeChanges staged diff unstaged).deletions = termDeletions diff ∧
    (analyzeChanges staged "+++ a\n+foo\n-bar\n--- b\n" unstaged).additions = 1 ∧
    (analyzeChanges staged "+++ a\n+foo\n-bar\n--- b\n" unstaged).deletions = 1 := by
  have hfun : ∀ c : Char, startsSingle c = beginsWithExactlyOne c :=
    fun c => funext fun l => startsSingle_eq_beginsOne c l
  refine ⟨?_, ?_, ?_, ?_⟩
  · show countAdditions diff = termAdditions diff
    unfold countAdditions termAdditions
    rw [hfun '+']
  · show countDeletions diff = termDeletions diff
    unfold countDeletions termDeletions
    rw [hfun '-']
  · show countAdditions "+++ a\n+foo\n-bar\n--- b\n" = 1
    decide
  · show countDeletions "+++ a\n+foo\n-bar\n--- b\n" = 1
    decide

/-! ## Analyzer totality and defaults (C7) -/

/-- C7: the analyzer is a total function of its input strings (it is a
Lean `def`, defined on every pair of strings, and raises nothing); an
empty diff yields 0 additions and 0 deletions, and an empty stat yields
an empty file list. -/
theorem analyzer_defaults_total (staged diff unstaged : String) :
    (analyzeChanges staged "" unstaged).additions = 0 ∧
    (analyzeChanges staged "" unstaged).deletions = 0 ∧
    (analyzeChanges "" diff unstaged).filesChanged = [] := by
  refine ⟨?_, ?_, ?_⟩
  · show countAdditions "" = 0
    decide
  · show countDeletions "" = 0
    decide
  · show extractFiles "" = []
    decide

/-! ## hasStaged and trimming (C8) -/

/-- C8: through the deployed pipeline (git output trimmed by `exec`),
`hasStaged` is true exactly when the raw stat output is non-empty after
trimming; a whitespace-only stat output yields `hasStaged = false`. -/
theorem hasStaged_iff_trimmed_nonempty (rawStat rawDiff rawUnstaged : String) :
    ((analyzeFromGit rawStat rawDiff rawUnstaged).hasStaged = true ↔ jsTrim rawStat ≠ "") ∧
    (analyzeFromGit " \t " rawDiff rawUnstaged).hasStaged = false := by
  constructor
  · show (jsTrim rawStat != "") = true ↔ jsTrim rawStat ≠ ""
    exact bne_iff_ne
  · show (jsTrim " \t " != "") = false
    decide

/-! ## Non-empty file list implies hasStaged (C10) -/

/-- C10: whenever the analyzer reports a non-empty `filesChanged`, it
also reports `hasStaged = true` (paths are only extracted when the stat
text is non-empty). -/
theorem files_nonempty_implies_hasStaged (staged diff unstaged : String)
    (h : (analyzeChanges staged diff unstaged).filesChanged ≠ []) :
    (analyzeChanges staged diff unstaged).hasStaged = true := by
  have hs : staged ≠ "" := by
    intro he
    apply h
    show extractFiles staged = []
    rw [he]
    decide
  show (staged != "") = true
  exact bne_iff_ne.mpr hs

/-- Witness for C10 at a concrete one-file stat output. -/
theorem files_nonempty_implies_hasStaged_witness :
    (analyzeChanges "a.ts | 1 +" "" "").filesChanged ≠ [] ∧
    (analyzeChanges "a.ts | 1 +" "" "").hasStaged = true :=
  ⟨by decide, files_nonempty_implies_hasStaged "a.ts | 1 +" "" "" (by decide)⟩

/-! ## Suggester length bounds (C2) -/

theorem if_singleton_len {c : Prop} [Decidable c] (m : CommitMessage) :
    (if c then [m] else ([] : List CommitMessage)).length ≤ 1 := by
  split <;> simp

theorem cg_rules_len_le (a : GitAnalysis) : (CommitGen.rules a).length ≤ 5 := by
  have h1 : (CommitGen.ruleFeat a).length ≤ 1 := if_singleton_len _
  have h2 : (CommitGen.ruleRefactor a).length ≤ 1 := if_singleton_len _
  have h3 : (CommitGen.ruleTest a).length ≤ 1 := if_singleton_len _
  have h4 : (CommitGen.ruleDocs a).length ≤ 1 := if_singleton_len _
  have h5 : (CommitGen.ruleChore a).length ≤ 1 := if_singleton_len _
  unfold CommitGen.rules
  simp only [List.length_append]
  omega

theorem vg_rules_len_le (a : GitAnalysis) : (VGProvider.rules a).length ≤ 5 := by
  have h1 : (VGProvider.ruleFeat a).length ≤ 1 := if_singleton_len _
  have h2 : (VGProvider.ruleRefactor a).length ≤ 1 := if_singleton_len _
  have h3 : (VGProvider.ruleTest a).length ≤ 1 := if_singleton_len _
  have h4 : (VGProvider.ruleDocs a).length ≤ 1 := if_singleton_len _
  have h5 : (VGProvider.ruleChore a).length ≤ 1 := if_singleton_len _
  unfold VGProvider.rules
  simp only [List.length_append]
  omega

theorem cg_len_bounds (a : GitAnalysis) :
    1 ≤ (CommitGen.getFallbackSuggestions a).length ∧
    (CommitGen.getFallbackSuggestions a).length ≤ 5 := by
  unfold CommitGen.getFallbackSuggestions CommitGen.fallbackRaw
  by_cases h : CommitGen.rules a = []
  · rw [if_pos h]
    simp
  · rw [if_neg h]
    have h5 := cg_rules_len_le a
    have h1 : 0 < (CommitGen.rules a).length := List.length_pos.mpr h
    rw [List.length_take]
    omega

theorem vg_len_bounds (a : GitAnalysis) :
    1 ≤ (VGProvider.getFallbackSuggestions a).length ∧
    (VGProvider.getFallbackSuggestions a).length ≤ 5 := by
  unfold VGProvider.getFallbackSuggestions
  by_cases h : VGProvider.rules a = []
  · rw [if_pos h]
    simp
  · rw [if_neg h]
    have h5 := vg_rules_len_le a
    have h1 : 0 < (VGProvider.rules a).length := List.length_pos.mpr h
    omega

/-- C2: on every analysis, each rule-based suggester (the orchestrator's
and the provider's) returns between 1 and 5 candidates: every matching
rule contributes one candidate in the fixed order feat-size,
refactor-size, test, docs, chore, the generic fallback guarantees
non-emptiness, and the result never exceeds five entries. -/
theorem suggester_length_bounds (a : GitAnalysis) :
    1 ≤ (CommitGen.getFallbackSuggestions a).length ∧
    (CommitGen.getFallbackSuggestions a).length ≤ 5 ∧
    1 ≤ (VGProvider.getFallbackSuggestions a).length ∧
    (VGProvider.getFallbackSuggestions a).length ≤ 5 :=
  ⟨(cg_len_bounds a).1, (cg_len_bounds a).2, (vg_len_bounds a).1, (vg_len_bounds a).2⟩

/-! ## Size rules are exclusive; the slice never discards (C9) -/

/-- C9: the feat-size and refactor-size rules can never fire together on
natural counts, so the orchestrator accumulates at most 4 rule
candidates (the generic branch contributes exactly 3), and the final
`slice(0, 5)` never discards a candidate. -/
theorem size_rules_exclusive_no_truncation (a : GitAnalysis) :
    (¬((a.additions > a.deletions * 2 ∧ a.additions > 20) ∧
       (a.deletions > a.additions * 2 ∧ a.deletions > 20))) ∧
    (CommitGen.rules a).length ≤ 4 ∧
    CommitGen.getFallbackSuggestions a = CommitGen.fallbackRaw a := by
  refine ⟨?_, ?_, ?_⟩
  · rintro ⟨⟨h1, _⟩, ⟨h2, _⟩⟩
    omega
  · have h12 : (CommitGen.ruleFeat a).length + (CommitGen.ruleRefactor a).length ≤ 1 := by
      by_cases h1 : a.additions > a.deletions * 2 ∧ a.additions > 20
      · have h2 : ¬(a.deletions > a.additions * 2 ∧ a.deletions > 20) := by
          rintro ⟨hb, _⟩
          rcases h1 with ⟨ha, _⟩
          omega
        unfold CommitGen.ruleFeat CommitGen.ruleRefactor
        rw [if_pos h1, if_neg h2]
        simp
      · unfold CommitGen.ruleFeat
        rw [if_neg h1]
        have := if_singleton_len (c := a.deletions > a.additions * 2 ∧ a.deletions > 20)
          ({ type := "refactor", subject := "remove unused code" } : CommitMessage)
        simpa [CommitGen.ruleRefactor] using this
    have h3 : (CommitGen.ruleTest a).length ≤ 1 := if_singleton_len _
    have h4 : (CommitGen.ruleDocs a).length ≤ 1 := if_singleton_len _
    have h5 : (CommitGen.ruleChore a).length ≤ 1 := if_singleton_len _
    unfold CommitGen.rules
    simp only [List.length_append]
    omega
  · have hlen : (CommitGen.fallbackRaw a).length ≤ 5 := by
      unfold CommitGen.fallbackRaw
      split
      · simp
      · exact cg_rules_len_le a
    unfold CommitGen.getFallbackSuggestions
    exact List.take_of_length_le hlen

/-! ## The two fallback implementations (C3) -/

theorem map_if_singleton {c : Prop} [Decidable c] (m : CommitMessage)
    (f : CommitMessage → String) :
    (if c then [m] else ([] : List CommitMessage)).map f = if c then [f m] else [] := by
  split <;> rfl

theorem rules_types_eq (a : GitAnalysis) :
    (CommitGen.rules a).map (fun m => m.type) =
    (VGProvider.rules a).map (fun m => m.type) := by
  unfold CommitGen.rules VGProvider.rules
  unfold CommitGen.ruleFeat CommitGen.ruleRefactor CommitGen.ruleTest
    CommitGen.ruleDocs CommitGen.ruleChore
  unfold VGProvider.ruleFeat VGProvider.ruleRefactor VGProvider.ruleTest
    VGProvider.ruleDocs VGProvider.ruleChore
  simp only [List.map_append, map_if_singleton]

/-- C3 counterexample: on the empty analysis (no rule fires) the
orchestrator's fallback returns three candidates while the provider's
returns one, so the two implementations are not the same function. -/
theorem fallback_duplicates_differ :
    CommitGen.getFallbackSuggestions emptyAnalysis ≠
      VGProvider.getFallbackSuggestions emptyAnalysis ∧
    (CommitGen.getFallbackSuggestions emptyAnalysis).length = 3 ∧
    (VGProvider.getFallbackSuggestions emptyAnalysis).length = 1 := by
  refine ⟨?_, by decide, by decide⟩
  decide

/-- C3 amended: whenever at least one of the five rules fires, the two
implementations agree on the commit types and their order (they evaluate
the same predicates in the same order); their subjects/scopes and their
no-rule generic fallbacks differ. -/
theorem fallback_types_agree (a : GitAnalysis) (h : CommitGen.rules a ≠ []) :
    (CommitGen.getFallbackSuggestions a).map (fun m => m.type) =
    (VGProvider.getFallbackSuggestions a).map (fun m => m.type) := by
  have ht := rules_types_eq a
  have hvp : VGProvider.rules a ≠ [] := by
    intro he
    rw [he] at ht
    simp only [List.map_nil] at ht
    exact h (List.map_eq_nil_iff.mp ht)
  unfold CommitGen.getFallbackSuggestions CommitGen.fallbackRaw
    VGProvider.getFallbackSuggestions
  rw [if_neg h, if_neg hvp, List.take_of_length_le (cg_rules_len_le a)]
  exact ht

/-- Witness for the amended C3 on an analysis where the docs rule fires. -/
theorem fallback_types_agree_witness :
    CommitGen.rules readmeAnalysis ≠ [] ∧
    (CommitGen.getFallbackSuggestions readmeAnalysis).map (fun m => m.type) =
      (VGProvider.getFallbackSuggestions readmeAnalysis).map (fun m => m.type) :=
  ⟨by decide, fallback_types_agree readmeAnalysis (by decide)⟩

/-! ## The feat size rule and scope inference (C4) -/

/-- C4 counterexample: on the spec's end-to-end scenario (45 additions,
12 deletions, single file `src/components/Button.tsx`) the
orchestrator's rule-based suggester returns exactly one feat candidate
with no scope and the fixed subject "add new feature"; nothing in its
output is derived from `components`. -/
theorem orchestrator_feat_no_scope :
    CommitGen.getFallbackSuggestions buttonAnalysis =
      [{ type := "feat", subject := "add new feature" }] ∧
    ∀ m ∈ CommitGen.getFallbackSuggestions buttonAnalysis, m.scope = none := by
  refine ⟨by decide, ?_⟩
  decide

/-- C4 amended: the provider's implementation satisfies the claim: under
the feat size rule it emits a feat candidate whose scope is the inferred
dominant-segment scope of `filesChanged`; the orchestrator's
implementation emits a scope-less generic feat candidate instead. -/
theorem provider_feat_scope_inferred (a : GitAnalysis)
    (h1 : a.additions > a.deletions * 2) (h2 : a.additions > 20) :
    ∃ m, m ∈ VGProvider.getFallbackSuggestions a ∧
      m.type = "feat" ∧ m.scope = some (inferScope a.filesChanged) := by
  have hf : VGProvider.ruleFeat a =
      [{ type := "feat"
         scope := some (inferScope a.filesChanged)
         subject := "add " ++ inferFeatureType a.filesChanged }] := by
    unfold VGProvider.ruleFeat
    rw [if_pos ⟨h1, h2⟩]
  have hmem : ({ type := "feat"
                 scope := some (inferScope a.filesChanged)
                 subject := "add " ++ inferFeatureType a.filesChanged } : CommitMessage)
      ∈ VGProvider.rules a := by
    unfold VGProvider.rules
    rw [hf]
    exact List.mem_append_left _ (List.mem_append_left _ (List.mem_append_left _
      (List.mem_append_left _ (List.mem_cons_self _ _))))
  have hne : VGProvider.rules a ≠ [] := by
    intro he
    rw [he] at hmem
    exact absurd hmem (List.not_mem_nil _)
  refine ⟨{ type := "feat"
            scope := some (inferScope a.filesChanged)
            subject := "add " ++ inferFeatureType a.filesChanged }, ?_, rfl, rfl⟩
  unfold VGProvider.getFallbackSuggestions
  rw [if_neg hne]
  exact hmem

/-- Witness for the amended C4 at the spec's end-to-end scenario: the
inferred scope is derived from `components`. -/
theorem provider_feat_scope_inferred_witness :
    ∃ m, m ∈ VGProvider.getFallbackSuggestions buttonAnalysis ∧
      m.type = "feat" ∧ m.scope = some "components" := by
  have h := provider_feat_scope_inferred buttonAnalysis (by decide) (by decide)
  have e : inferScope buttonAnalysis.filesChanged = "components" := by decide
  rw [e] at h
  exact h

/-! ## The no-rule generic fallback (C5) -/

/-- C5 counterexample: on the empty analysis (no rule fires) the
orchestrator's suggester emits three generic candidates — feat, fix and
refactor — not exactly one generic feat candidate. -/
theorem orchestrator_generic_three :
    CommitGen.getFallbackSuggestions emptyAnalysis =
      [{ type := "feat", subject := "add feature" },
       { type := "fix", subject := "fix issue" },
       { type := "refactor", subject := "refactor code" }] ∧
    (CommitGen.getFallbackSuggestions emptyAnalysis).length ≠ 1 := by
  refine ⟨by decide, by decide⟩

/-- C5 amended: when no rule fires, the provider's implementation emits
exactly one generic feat candidate as its entire output, while the
orchestrator's implementation emits three generic candidates (feat, fix,
refactor). -/
theorem generic_fallback_shapes (a : GitAnalysis) (h : noRuleFires a) :
    VGProvider.getFallbackSuggestions a =
      [{ type := "feat", subject := "update " ++ inferScope a.filesChanged }] ∧
    CommitGen.getFallbackSuggestions a =
      [{ type := "feat", subject := "add feature" },
       { type := "fix", subject := "fix issue" },
       { type := "refactor", subject := "refactor code" }] := by
  obtain ⟨hn1, hn2, ht, hd, hc⟩ := h
  have hO : CommitGen.rules a = [] := by
    unfold CommitGen.rules CommitGen.ruleFeat CommitGen.ruleRefactor
      CommitGen.ruleTest CommitGen.ruleDocs CommitGen.ruleChore
    rw [if_neg hn1, if_neg hn2]
    simp [ht, hd, hc]
  have hP : VGProvider.rules a = [] := by
    unfold VGProvider.rules VGProvider.ruleFeat VGProvider.ruleRefactor
      VGProvider.ruleTest VGProvider.ruleDocs VGProvider.ruleChore
    rw [if_neg hn1, if_neg hn2]
    simp [ht, hd, hc]
  constructor
  · unfold VGProvider.getFallbackSuggestions
    rw [if_pos hP]
  · unfold CommitGen.getFallbackSuggestions CommitGen.fallbackRaw
    rw [if_pos hO]
    rfl

/-- Witness for the amended C5 on the empty analysis. -/
theorem generic_fallback_shapes_witness :
    noRuleFires emptyAnalysis ∧
    VGProvider.getFallbackSuggestions emptyAnalysis =
      [{ type := "feat", subject := "update core" }] := by
  have h : noRuleFires emptyAnalysis := by decide
  exact ⟨h, (generic_fallback_shapes emptyAnalysis h).1.trans (by decide)⟩

/-! ## File extraction: regex behaviour vs the spec's reading (C6) -/

theorem drop_append_le {α : Type} :
    ∀ (w : List α) (a : Nat), a ≤ w.length → ∀ r : List α,
      (w ++ r).drop a = w.drop a ++ r := by
  intro w
  induction w with
  | nil =>
    intro a ha r
    have h0 : a = 0 := Nat.le_zero.mp (by simpa using ha)
    subst h0
    simp
  | cons x w ih =>
    intro a ha r
    cases a with
    | zero => simp
    | succ n =>
      simp only [List.cons_append, List.drop_succ_cons]
      exact ih n (by simp at ha; omega) r

theorem head_dropWhile_false (p : Char → Bool) (l : List Char) (c : Char)
    (h : (l.dropWhile p).head? = some c) : p c = false := by
  induction l with
  | nil => simp [List.dropWhile] at h
  | cons a t ih =>
    by_cases hp : p a = true
    · rw [List.dropWhile_cons_of_pos hp] at h
      exact ih h
    · rw [List.dropWhile_cons_of_neg hp] at h
      simp only [List.head?_cons, Option.some.injEq] at h
      simp only [Bool.not_eq_true] at hp
      rw [← h]
      exact hp

theorem dropWhile_ws_append (r : List Char)
    (hr : ∀ c, r.head? = some c → isWs c = false) :
    ∀ w : List Char, (∀ c ∈ w, isWs c = true) →
      (w ++ r).dropWhile isWs = r := by
  intro w
  induction w with
  | nil =>
    intro _
    cases hr0 : r with
    | nil => simp
    | cons x t =>
      have hx : isWs x = false := hr x (by rw [hr0]; rfl)
      simp [List.dropWhile_cons, hx]
  | cons a w ih =>
    intro hw
    have ha : isWs a = true := hw a (List.mem_cons_self a w)
    simp only [List.cons_append, List.dropWhile_cons_of_pos ha]
    exact ih fun c hc => hw c (List.mem_cons_of_mem a hc)

theorem wsRunThenPipe_ws_append (r : List Char)
    (hr : ∀ c, r.head? = some c → isWs c = false)
    (hpipe : r.head? ≠ some '|') :
    ∀ w : List Char, (∀ c ∈ w, isWs c = true) →
      wsRunThenPipe (w ++ r) = false := by
  intro w hw
  cases w with
  | nil =>
    cases hr0 : r with
    | nil => rfl
    | cons x t =>
      have hx : isWs x = false := hr x (by rw [hr0]; rfl)
      simp [wsRunThenPipe, hx]
  | cons a w' =>
    show wsRunThenPipe (a :: (w' ++ r)) = false
    simp only [wsRunThenPipe]
    rw [dropWhile_ws_append r hr w' (fun c hc => hw c (List.mem_cons_of_mem a hc))]
    have hne : (r.head? == some '|') = false := beq_eq_false_iff_ne.mpr hpipe
    simp [hne]

theorem lazyCapture_ws_append (r : List Char)
    (hr : ∀ c, r.head? = some c → isWs c = false)
    (hpipe : r.head? ≠ some '|')
    (hnone : lazyCapture r = none) :
    ∀ w : List Char, (∀ c ∈ w, isWs c = true) →
      lazyCapture (w ++ r) = none := by
  intro w
  induction w with
  | nil =>
    intro _
    simpa using hnone
  | cons a w ih =>
    intro hw
    have hw' : ∀ c ∈ w, isWs c = true := fun c hc => hw c (List.mem_cons_of_mem a hc)
    show lazyCapture (a :: (w ++ r)) = none
    by_cases hlt : isLineTerm a = true
    · simp [lazyCapture, hlt]
    · have hlt' : isLineTerm a = false := by simpa using hlt
      simp only [lazyCapture, hlt']
      rw [wsRunThenPipe_ws_append r hr hpipe w hw']
      simp [ih hw']

theorem drop_length_takeWhile_eq_dropWhile (p : Char → Bool) (s : List Char) :
    s.drop (s.takeWhile p).length = s.dropWhile p := by
  have happ := List.takeWhile_append_dropWhile (p := p) (l := s)
  calc s.drop (s.takeWhile p).length
      = (s.takeWhile p ++ s.dropWhile p).drop (s.takeWhile p).length := by rw [happ]
    _ = s.dropWhile p := List.drop_left _ _

theorem regexCapture_of_spec (s cs : List Char)
    (h : lazyCapture (s.dropWhile isWs) = some cs) :
    regexCapture s = some cs := by
  unfold regexCapture
  cases hk : (s.takeWhile isWs).length with
  | zero =>
    have ht : s.takeWhile isWs = [] := List.length_eq_zero.mp hk
    have h0 : s.dropWhile isWs = s := by
      have happ := List.takeWhile_append_dropWhile (p := isWs) (l := s)
      rw [ht] at happ
      simpa using happ
    rw [h0] at h
    show matchFrom s 0 = some cs
    simpa only [matchFrom] using h
  | succ a =>
    show matchFrom s (a + 1) = some cs
    have hd : s.drop (a + 1) = s.dropWhile isWs := by
      rw [← hk]
      exact drop_length_takeWhile_eq_dropWhile isWs s
    simp only [matchFrom, hd, h]

theorem lazyCapture_drop_none (s : List Char) (a : Nat)
    (ha : a ≤ (s.takeWhile isWs).length)
    (hnone : lazyCapture (s.dropWhile isWs) = none)
    (hnd : ¬(2 ≤ (s.takeWhile isWs).length ∧ (s.dropWhile isWs).head? = some '|')) :
    lazyCapture (s.drop a) = none := by
  have hr : ∀ c, (s.dropWhile isWs).head? = some c → isWs c = false :=
    fun c hc => head_dropWhile_false isWs s c hc
  have hdrop : s.drop a = (s.takeWhile isWs).drop a ++ s.dropWhile isWs := by
    have happ := List.takeWhile_append_dropWhile (p := isWs) (l := s)
    calc s.drop a = (s.takeWhile isWs ++ s.dropWhile isWs).drop a := by rw [happ]
      _ = (s.takeWhile isWs).drop a ++ s.dropWhile isWs := drop_append_le _ a ha _
  have hw : ∀ c ∈ (s.takeWhile isWs).drop a, isWs c = true := by
    intro c hc
    exact List.mem_takeWhile_imp (List.drop_subset _ _ hc)
  by_cases hp : (s.dropWhile isWs).head? = some '|'
  · have hk1 : (s.takeWhile isWs).length ≤ 1 := by
      by_contra hgt
      exact hnd ⟨by omega, hp⟩
    cases hwd : (s.takeWhile isWs).drop a with
    | nil =>
      rw [hdrop, hwd]
      simpa using hnone
    | cons b t =>
      have hlen : ((s.takeWhile isWs).drop a).length ≤ 1 := by
        rw [List.length_drop]
        omega
      rw [hwd] at hlen
      simp only [List.length_cons] at hlen
      have ht : t = [] := List.eq_nil_of_length_eq_zero (by omega)
      subst ht
      rw [hdrop, hwd]
      show lazyCapture (b :: s.dropWhile isWs) = none
      have hrun : wsRunThenPipe (s.dropWhile isWs) = false := by
        cases hr0 : s.dropWhile isWs with
        | nil => rfl
        | cons x t' =>
          have hx : isWs x = false := hr x (by rw [hr0]; rfl)
          simp [wsRunThenPipe, hx]
      by_cases hlt : isLineTerm b = true
      · simp [lazyCapture, hlt]
      · have hlt' : isLineTerm b = false := by simpa using hlt
        simp [lazyCapture, hlt', hrun, hnone]
  · rw [hdrop]
    exact lazyCapture_ws_append (s.dropWhile isWs) hr hp hnone _ hw

theorem matchFrom_none_of (s : List Char)
    (hnone : lazyCapture (s.dropWhile isWs) = none)
    (hnd : ¬(2 ≤ (s.takeWhile isWs).length ∧ (s.dropWhile isWs).head? = some '|')) :
    ∀ a, a ≤ (s.takeWhile isWs).length → matchFrom s a = none := by
  intro a
  induction a with
  | zero =>
    intro _
    show matchFrom s 0 = none
    have h0 := lazyCapture_drop_none s 0 (Nat.zero_le _) hnone hnd
    simpa only [matchFrom, List.drop_zero] using h0
  | succ a ih =>
    intro ha
    simp only [matchFrom]
    rw [lazyCapture_drop_none s (a + 1) ha hnone hnd]
    exact ih (by omega)

theorem regexCapture_none (s : List Char)
    (hnone : lazyCapture (s.dropWhile isWs) = none)
    (hnd : ¬(2 ≤ (s.takeWhile isWs).length ∧ (s.dropWhile isWs).head? = some '|')) :
    regexCapture s = none :=
  matchFrom_none_of s hnone hnd _ (Nat.le_refl _)

theorem mem_of_mem_dropWhile {p : Char → Bool} {l : List Char} {c : Char}
    (h : c ∈ l.dropWhile p) : c ∈ l := by
  induction l with
  | nil => simp at h
  | cons a t ih =>
    by_cases hp : p a = true
    · rw [List.dropWhile_cons_of_pos hp] at h
      exact List.mem_cons_of_mem a (ih h)
    · rw [List.dropWhile_cons_of_neg hp] at h
      exact h

theorem lazyCapture_eq_specSeek :
    ∀ u : List Char, (∀ c ∈ u, isLineTerm c = false) →
      lazyCapture u = specSeek u := by
  intro u
  induction u with
  | nil =>
    intro _
    rfl
  | cons c rest ih =>
    intro h
    have hc : isLineTerm c = false := h c (List.mem_cons_self c rest)
    have ih' := ih fun x hx => h x (List.mem_cons_of_mem c hx)
    simp [lazyCapture, specSeek, hc, ih']

theorem lineCapture_eq_spec (l : List Char) (h : degenerateLine l = false)
    (hlt : ∀ c ∈ l, isLineTerm c = false) :
    lineCapture l = specLineCapture l := by
  have heq : lazyCapture (l.dropWhile isWs) = specSeek (l.dropWhile isWs) :=
    lazyCapture_eq_specSeek _ fun c hc => hlt c (mem_of_mem_dropWhile hc)
  unfold lineCapture specLineCapture
  rw [← heq]
  cases hc : lazyCapture (l.dropWhile isWs) with
  | some cs => rw [regexCapture_of_spec l cs hc]
  | none =>
    have hnd : ¬(2 ≤ (l.takeWhile isWs).length ∧ (l.dropWhile isWs).head? = some '|') := by
      rintro ⟨h2, hp⟩
      unfold degenerateLine at h
      rw [hc] at h
      simp [h2, hp] at h
    rw [regexCapture_none l hc hnd]

/-- C6 counterexample: on the stat line `"  | x"` (only whitespace before
the pipe) the source regex backtracks into the leading whitespace and
extracts the single-space path `" "`, while under the claimed rule the
line matches nothing and contributes no path; conversely, on the line
`"a\rb | 1"` the regex's dot cannot cross the bare CR, so the source
extracts nothing while the claimed rule extracts `"a\rb"`. -/
theorem file_extraction_counterexample :
    extractFiles "  | x" = [" "] ∧ specFiles "  | x" = [] ∧
    extractFiles "  | x" ≠ specFiles "  | x" ∧
    extractFiles "a\rb | 1" = [] ∧ specFiles "a\rb | 1" = ["a\rb"] :=
  ⟨by decide, by decide, by decide, by decide, by decide⟩

/-- C6 amended: for every stat text none of whose lines contains a bare
line-terminator character (CR, LINE SEPARATOR, PARAGRAPH SEPARATOR —
characters the regex dot cannot cross) and none of whose lines is
degenerate (a line whose only viable match sits inside its leading
whitespace run: at least two whitespace characters immediately followed
by a pipe and no later match), `filesChanged` contains, in line order,
exactly the paths of the lines matching the "path | changes" shape, the
path being everything after the leading whitespace and before the first
subsequent whitespace run followed by a pipe; other lines contribute
nothing.  On a degenerate line the analyzer instead extracts a single
whitespace character, and on a line whose path region contains a bare
line terminator it extracts nothing. -/
theorem file_extraction_matches_spec (stat : String)
    (h : ∀ l ∈ splitLines stat.data,
        degenerateLine l = false ∧ ∀ c ∈ l, isLineTerm c = false) :
    extractFiles stat = specFiles stat := by
  by_cases hs : stat = ""
  · subst hs
    decide
  · unfold extractFiles specFiles
    rw [if_neg hs]
    exact List.filterMap_congr fun l hl => lineCapture_eq_spec l (h l hl).1 (h l hl).2

/-- Witness for the amended C6 on a realistic two-line stat output. -/
theorem file_extraction_matches_spec_witness :
    (∀ l ∈ splitLines ("src/index.ts | 10 ++\nREADME.md |  2 +-").data,
        degenerateLine l = false ∧ ∀ c ∈ l, isLineTerm c = false) ∧
    extractFiles "src/index.ts | 10 ++\nREADME.md |  2 +-" =
      specFiles "src/index.ts | 10 ++\nREADME.md |  2 +-" ∧
    extractFiles "src/index.ts | 10 ++\nREADME.md |  2 +-" =
      ["src/index.ts", "README.md"] :=
  ⟨by decide, file_extraction_matches_spec _ (by decide), by decide⟩
